import Mathlib

/-!
Verification of the Xonix area-claiming core.

Shallow embedding of the grid model, the flood-fill region solver
(src/utils/algorithms/FloodFill.ts), the trail/claim manager
(src/utils/game/TrailManager.ts), the collision detector
(src/utils/game/CollisionDetector.ts), the enemy physics
(predictive-bounce revision of src/utils/physics/EnemyPhysics.ts),
the surprise/pickup manager (src/utils/game/SurpriseManager.ts), the
level manager (src/utils/game/LevelManager.ts) and the orchestrator
(src/utils/GameLogic.ts).

JavaScript encodes a grid cell as the string "x,y"; that encoding is
injective on integer pairs, so cells are modelled as pairs of integers
and the string sets as finite sets of such pairs.  Pixel coordinates
and velocities are modelled as rationals.  Where the source computes
Math.sqrt of a quantity, the embedding either compares squared values
(strictly equivalent, since sqrt is monotone and the thresholds are
nonnegative) or receives the square root as an explicit argument
constrained by its defining equation.
-/

namespace Xonix

/-- A grid cell, addressed by integer column and row (the JS string key
"x,y" decoded). -/
abbrev Cell := ℤ × ℤ

/-- Bounds test of FloodFill.ts line 19:
x < 0 || x >= gridWidth || y < 0 || y >= gridHeight (negated). -/
def inBounds (w h : ℕ) (c : Cell) : Prop :=
  0 ≤ c.1 ∧ c.1 < (w : ℤ) ∧ 0 ≤ c.2 ∧ c.2 < (h : ℤ)

instance (w h : ℕ) (c : Cell) : Decidable (inBounds w h c) := by
  unfold inBounds; infer_instance

/-- All in-bounds cells of a w × h grid. -/
def gridFinset (w h : ℕ) : Finset Cell :=
  Finset.Icc 0 ((w : ℤ) - 1) ×ˢ Finset.Icc 0 ((h : ℤ) - 1)

lemma mem_gridFinset {w h : ℕ} {c : Cell} :
    c ∈ gridFinset w h ↔ inBounds w h c := by
  cases c with
  | mk x y =>
    simp only [gridFinset, Finset.mem_product, Finset.mem_Icc, inBounds]
    omega

lemma gridFinset_card (w h : ℕ) : (gridFinset w h).card = w * h := by
  simp only [gridFinset, Finset.card_product, Int.card_Icc]
  have hw : ((w : ℤ) - 1 + 1 - 0).toNat = w := by omega
  have hh : ((h : ℤ) - 1 + 1 - 0).toNat = h := by omega
  rw [hw, hh]

/-- The four neighbours pushed by FloodFill.ts lines 27-30, listed in the
order in which the array-based stack pops them (last push first). -/
def neighbors (c : Cell) : List Cell :=
  [(c.1, c.2 - 1), (c.1, c.2 + 1), (c.1 - 1, c.2), (c.1 + 1, c.2)]

lemma neighbors_symm {a b : Cell} : a ∈ neighbors b → b ∈ neighbors a := by
  cases a with
  | mk ax ay =>
    cases b with
    | mk bx bEl =>
      simp only [neighbors, List.mem_cons, List.mem_singleton, Prod.mk.injEq,
        List.not_mem_nil, or_false]
      omega

/-- FloodFill.floodFill, FloodFill.ts lines 12-33.  The explicit stack
loop of the source becomes structural recursion on the stack, with the
shared mutable visited set threaded explicitly; the function returns the
final visited set together with the collected area (the source returns
the area and mutates visited in place). -/
def floodFillAux (w h : ℕ) (filledCells trailSet : Finset Cell) :
    List Cell → Finset Cell → Finset Cell → Finset Cell × Finset Cell
  | [], visited, area => (visited, area)
  | c :: stack, visited, area =>
    if ¬ inBounds w h c then
      floodFillAux w h filledCells trailSet stack visited area
    else if c ∈ visited then
      floodFillAux w h filledCells trailSet stack visited area
    else if c ∈ filledCells ∨ c ∈ trailSet then
      floodFillAux w h filledCells trailSet stack visited area
    else
      floodFillAux w h filledCells trailSet (neighbors c ++ stack)
        (insert c visited) (insert c area)
termination_by stack visited _ =>
  5 * ((gridFinset w h) \ visited).card + stack.length
decreasing_by
  · simp only [List.length_cons]; omega
  · simp only [List.length_cons]; omega
  · simp only [List.length_cons]; omega
  · simp only [List.length_cons, List.length_append]
    have hin : inBounds w h c := not_not.mp (by assumption)
    have hmem : c ∈ (gridFinset w h) \ visited := by
      rw [Finset.mem_sdiff, mem_gridFinset]
      exact ⟨hin, by assumption⟩
    have hcard : ((gridFinset w h) \ insert c visited).card
        = ((gridFinset w h) \ visited).card - 1 := by
      have : (gridFinset w h) \ insert c visited
          = ((gridFinset w h) \ visited).erase c := by
        ext d
        simp only [Finset.mem_sdiff, Finset.mem_insert, Finset.mem_erase,
          mem_gridFinset]
        tauto
      rw [this, Finset.card_erase_of_mem hmem]
    have hpos : 0 < ((gridFinset w h) \ visited).card :=
      Finset.card_pos.mpr ⟨c, hmem⟩
    simp only [neighbors, List.length_cons, List.length_nil]
    omega

/-- FloodFill.floodFill entry point: seed the stack with the start cell
and the area with the empty set (FloodFill.ts lines 12-13). -/
def floodFill (startX startY : ℤ) (w h : ℕ)
    (filledCells trailSet visited : Finset Cell) : Finset Cell × Finset Cell :=
  floodFillAux w h filledCells trailSet [(startX, startY)] visited ∅

/-- A cell the flood fill may occupy: in bounds, not a wall cell
(filledCells/trailSet, FloodFill.ts line 21) and not in the visited set
the call started from (line 20). -/
def goodCell (w h : ℕ) (filledCells trailSet visited₀ : Finset Cell)
    (c : Cell) : Prop :=
  inBounds w h c ∧ c ∉ filledCells ∧ c ∉ trailSet ∧ c ∉ visited₀

instance (w h : ℕ) (fc ts v₀ : Finset Cell) (c : Cell) :
    Decidable (goodCell w h fc ts v₀ c) := by
  unfold goodCell; infer_instance

/-- One step of 4-directional adjacency between two occupiable cells. -/
def adjStep (w h : ℕ) (fc ts v₀ : Finset Cell) (a b : Cell) : Prop :=
  goodCell w h fc ts v₀ a ∧ goodCell w h fc ts v₀ b ∧ b ∈ neighbors a

/-- Reachability from a seed via 4-directional adjacency without leaving
grid bounds and without passing through the boundary (filledCells or
trailSet) or the initial visited set. -/
def reaches (w h : ℕ) (fc ts v₀ : Finset Cell) (s c : Cell) : Prop :=
  Relation.ReflTransGen (adjStep w h fc ts v₀) s c

lemma adjStep_symm {w h : ℕ} {fc ts v₀ : Finset Cell} {a b : Cell}
    (hab : adjStep w h fc ts v₀ a b) : adjStep w h fc ts v₀ b a :=
  ⟨hab.2.1, hab.1, neighbors_symm hab.2.2⟩

lemma reaches_symm {w h : ℕ} {fc ts v₀ : Finset Cell} {a b : Cell}
    (hab : reaches w h fc ts v₀ a b) : reaches w h fc ts v₀ b a :=
  Relation.ReflTransGen.symmetric (fun _ _ hxy => adjStep_symm hxy) hab

lemma reaches_good {w h : ℕ} {fc ts v₀ : Finset Cell} {s c : Cell}
    (hs : goodCell w h fc ts v₀ s) (hr : reaches w h fc ts v₀ s c) :
    goodCell w h fc ts v₀ c := by
  induction hr with
  | refl => exact hs
  | tail _ hstep ih => exact hstep.2.1

/-- Loop invariant of the flood-fill stack loop.  The returned visited
set is the initial one plus the returned area, the area collects exactly
occupiable cells reachable from the seed, every neighbour of an area
cell that is occupiable ends in the returned visited set, and the seed
itself lands in the area. -/
lemma floodFillAux_inv (w h : ℕ) (fc ts v₀ : Finset Cell) (s : Cell)
    (hs : goodCell w h fc ts v₀ s) (stack : List Cell)
    (visited area : Finset Cell)
    (h1 : visited = v₀ ∪ area)
    (h2 : ∀ c ∈ area, reaches w h fc ts v₀ s c)
    (h3 : ∀ c ∈ stack, goodCell w h fc ts v₀ c → reaches w h fc ts v₀ s c)
    (h4 : ∀ c ∈ area, ∀ d ∈ neighbors c, goodCell w h fc ts v₀ d →
        d ∈ visited ∨ d ∈ stack)
    (h5 : s ∈ stack ∨ s ∈ area) :
    (floodFillAux w h fc ts stack visited area).1
        = v₀ ∪ (floodFillAux w h fc ts stack visited area).2 ∧
    area ⊆ (floodFillAux w h fc ts stack visited area).2 ∧
    (∀ c ∈ (floodFillAux w h fc ts stack visited area).2,
        reaches w h fc ts v₀ s c) ∧
    (∀ c ∈ (floodFillAux w h fc ts stack visited area).2, ∀ d ∈ neighbors c,
        goodCell w h fc ts v₀ d →
        d ∈ (floodFillAux w h fc ts stack visited area).1) ∧
    s ∈ (floodFillAux w h fc ts stack visited area).2 := by
  induction stack, visited, area using floodFillAux.induct w h fc ts with
  | case1 visited area =>
    rw [floodFillAux]
    refine ⟨h1, Finset.Subset.refl _, h2, ?_, ?_⟩
    · intro c hc d hd hgd
      rcases h4 c hc d hd hgd with hv | hst
      · exact hv
      · exact absurd hst (List.not_mem_nil d)
    · rcases h5 with hst | ha
      · exact absurd hst (List.not_mem_nil s)
      · exact ha
  | case2 c stack visited area hcond ih =>
    rw [floodFillAux, if_pos hcond]
    have hnin : ¬ inBounds w h c := hcond
    refine ih h1 h2 (fun d hd hgd => h3 d (List.mem_cons_of_mem c hd) hgd)
      ?_ ?_
    · intro a ha d hd hgd
      rcases h4 a ha d hd hgd with hv | hst
      · exact Or.inl hv
      · rcases List.mem_cons.mp hst with rfl | hst2
        · exact absurd hgd.1 hnin
        · exact Or.inr hst2
    · rcases h5 with hst | ha
      · rcases List.mem_cons.mp hst with rfl | hst2
        · exact absurd hs.1 hnin
        · exact Or.inl hst2
      · exact Or.inr ha
  | case3 c stack visited area hcond1 hcond2 ih =>
    rw [floodFillAux, if_neg hcond1, if_pos hcond2]
    have harea : ∀ e : Cell, e ∈ visited → e ∉ v₀ → e ∈ area := by
      intro e hev hev0
      rw [h1] at hev
      exact (Finset.mem_union.mp hev).resolve_left hev0
    refine ih h1 h2 (fun d hd hgd => h3 d (List.mem_cons_of_mem c hd) hgd)
      ?_ ?_
    · intro a ha d hd hgd
      rcases h4 a ha d hd hgd with hv | hst
      · exact Or.inl hv
      · rcases List.mem_cons.mp hst with rfl | hst2
        · exact Or.inl hcond2
        · exact Or.inr hst2
    · rcases h5 with hst | ha
      · rcases List.mem_cons.mp hst with rfl | hst2
        · exact Or.inr (harea s hcond2 hs.2.2.2)
        · exact Or.inl hst2
      · exact Or.inr ha
  | case4 c stack visited area hcond1 hcond2 hcond3 ih =>
    rw [floodFillAux, if_neg hcond1, if_neg hcond2, if_pos hcond3]
    have hgc : ¬ goodCell w h fc ts v₀ c := by
      intro hg
      rcases hcond3 with hfc | hts
      · exact hg.2.1 hfc
      · exact hg.2.2.1 hts
    refine ih h1 h2 (fun d hd hgd => h3 d (List.mem_cons_of_mem c hd) hgd)
      ?_ ?_
    · intro a ha d hd hgd
      rcases h4 a ha d hd hgd with hv | hst
      · exact Or.inl hv
      · rcases List.mem_cons.mp hst with rfl | hst2
        · exact absurd hgd hgc
        · exact Or.inr hst2
    · rcases h5 with hst | ha
      · rcases List.mem_cons.mp hst with rfl | hst2
        · exact absurd hs hgc
        · exact Or.inl hst2
      · exact Or.inr ha
  | case5 c stack visited area hcond1 hcond2 hcond3 ih =>
    rw [floodFillAux, if_neg hcond1, if_neg hcond2, if_neg hcond3]
    have hgc : goodCell w h fc ts v₀ c := by
      refine ⟨not_not.mp hcond1, ?_, ?_, ?_⟩
      · intro hfc; exact hcond3 (Or.inl hfc)
      · intro hts; exact hcond3 (Or.inr hts)
      · intro hv0
        exact hcond2 (by rw [h1]; exact Finset.mem_union_left _ hv0)
    have hrc : reaches w h fc ts v₀ s c := h3 c (List.mem_cons_self c stack) hgc
    have hA : insert c visited = v₀ ∪ insert c area := by
      rw [h1, Finset.union_insert]
    have hB : ∀ e ∈ insert c area, reaches w h fc ts v₀ s e := by
      intro e he
      rcases Finset.mem_insert.mp he with rfl | he2
      · exact hrc
      · exact h2 e he2
    have hC : ∀ d ∈ neighbors c ++ stack, goodCell w h fc ts v₀ d →
        reaches w h fc ts v₀ s d := by
      intro d hd hgd
      rcases List.mem_append.mp hd with hnb | hst
      · exact hrc.tail ⟨hgc, hgd, hnb⟩
      · exact h3 d (List.mem_cons_of_mem c hst) hgd
    have hD : ∀ a ∈ insert c area, ∀ d ∈ neighbors a,
        goodCell w h fc ts v₀ d →
        d ∈ insert c visited ∨ d ∈ neighbors c ++ stack := by
      intro a ha d hd hgd
      rcases Finset.mem_insert.mp ha with rfl | ha2
      · exact Or.inr (List.mem_append_left _ hd)
      · rcases h4 a ha2 d hd hgd with hv | hst
        · exact Or.inl (Finset.mem_insert_of_mem hv)
        · rcases List.mem_cons.mp hst with rfl | hst2
          · exact Or.inl (Finset.mem_insert_self d visited)
          · exact Or.inr (List.mem_append_right _ hst2)
    have hE : s ∈ neighbors c ++ stack ∨ s ∈ insert c area := by
      rcases h5 with hst | ha
      · rcases List.mem_cons.mp hst with rfl | hst2
        · exact Or.inr (Finset.mem_insert_self s area)
        · exact Or.inl (List.mem_append_right _ hst2)
      · exact Or.inr (Finset.mem_insert_of_mem ha)
    obtain ⟨r1, r2, r3, r4, r5⟩ := ih hA hB hC hD hE
    exact ⟨r1, (Finset.subset_insert c area).trans r2, r3, r4, r5⟩

/-- Flood fill from an occupiable seed returns exactly the set of cells
reachable from the seed, and the returned visited set is the initial one
extended by exactly that area. -/
lemma floodFill_spec_good {w h : ℕ} {fc ts v₀ : Finset Cell} {s : Cell}
    (hs : goodCell w h fc ts v₀ s) :
    (floodFill s.1 s.2 w h fc ts v₀).1
        = v₀ ∪ (floodFill s.1 s.2 w h fc ts v₀).2 ∧
    ∀ c, c ∈ (floodFill s.1 s.2 w h fc ts v₀).2 ↔ reaches w h fc ts v₀ s c := by
  have h1 : v₀ = v₀ ∪ (∅ : Finset Cell) := by rw [Finset.union_empty]
  have h3 : ∀ c ∈ [(s.1, s.2)], goodCell w h fc ts v₀ c →
      reaches w h fc ts v₀ s c := by
    intro c hc _
    rcases List.mem_singleton.mp hc with rfl
    exact Relation.ReflTransGen.refl
  obtain ⟨r1, _, r3, r4, r5⟩ := floodFillAux_inv w h fc ts v₀ s hs
    [(s.1, s.2)] v₀ ∅ h1 (by simp) h3 (by simp)
    (Or.inl (by simp))
  refine ⟨r1, fun c => ⟨fun hc => r3 c hc, fun hr => ?_⟩⟩
  induction hr with
  | refl => exact r5
  | tail hprev hstep ih =>
    have hmem := r4 _ ih _ hstep.2.2 hstep.2.1
    rw [r1] at hmem
    exact (Finset.mem_union.mp hmem).resolve_left hstep.2.1.2.2.2

/-- A seed that is out of bounds, already a boundary cell or already
visited returns an empty area and leaves the visited set unchanged. -/
lemma floodFill_spec_bad {w h : ℕ} {fc ts v₀ : Finset Cell} {s : Cell}
    (hs : ¬ goodCell w h fc ts v₀ s) :
    floodFill s.1 s.2 w h fc ts v₀ = (v₀, ∅) := by
  have hnil : ∀ v a : Finset Cell, floodFillAux w h fc ts [] v a = (v, a) := by
    intro v a; rw [floodFillAux]
  unfold floodFill
  rw [floodFillAux]
  by_cases h1 : inBounds w h (s.1, s.2)
  · rw [if_neg (not_not_intro h1)]
    by_cases h2 : (s.1, s.2) ∈ v₀
    · rw [if_pos h2, hnil]
    · rw [if_neg h2]
      by_cases h3 : (s.1, s.2) ∈ fc ∨ (s.1, s.2) ∈ ts
      · rw [if_pos h3, hnil]
      · exact absurd ⟨h1, fun hfc => h3 (Or.inl hfc),
          fun hts => h3 (Or.inr hts), h2⟩ hs
  · rw [if_pos h1, hnil]

/-- The visited set returned by any flood-fill call is the initial one
plus the returned area. -/
lemma floodFill_visited_eq (w h : ℕ) (fc ts v₀ : Finset Cell) (s : Cell) :
    (floodFill s.1 s.2 w h fc ts v₀).1
      = v₀ ∪ (floodFill s.1 s.2 w h fc ts v₀).2 := by
  by_cases hs : goodCell w h fc ts v₀ s
  · exact (floodFill_spec_good hs).1
  · rw [floodFill_spec_bad hs, Finset.union_empty]

/-- Every cell of a returned area is occupiable; in particular it is not
in the visited set the call started from. -/
lemma floodFill_area_good (w h : ℕ) (fc ts v₀ : Finset Cell) (s : Cell) :
    ∀ c ∈ (floodFill s.1 s.2 w h fc ts v₀).2, goodCell w h fc ts v₀ c := by
  intro c hc
  by_cases hs : goodCell w h fc ts v₀ s
  · exact reaches_good hs (((floodFill_spec_good hs).2 c).mp hc)
  · rw [floodFill_spec_bad hs] at hc
    exact absurd hc (Finset.not_mem_empty c)

/-- C2: floodFill returns exactly the maximal set of in-bounds cells
reachable from the seed via 4-directional adjacency without passing
through a boundary cell (filledCells or trailSet) or the shared visited
set; a seed that is itself a boundary cell, already visited or out of
bounds yields an empty region; the returned visited set is the initial
one plus the area, and a successive call threading the returned visited
set produces a region disjoint from this one. -/
theorem floodFill_region_spec (sx sy : ℤ) (w h : ℕ)
    (fc ts v₀ : Finset Cell) :
    (goodCell w h fc ts v₀ (sx, sy) →
      ∀ c, c ∈ (floodFill sx sy w h fc ts v₀).2
        ↔ reaches w h fc ts v₀ (sx, sy) c) ∧
    (¬ goodCell w h fc ts v₀ (sx, sy) →
      (floodFill sx sy w h fc ts v₀).2 = ∅) ∧
    (floodFill sx sy w h fc ts v₀).1 = v₀ ∪ (floodFill sx sy w h fc ts v₀).2 ∧
    (∀ sx2 sy2 : ℤ,
      Disjoint (floodFill sx2 sy2 w h fc ts
          (floodFill sx sy w h fc ts v₀).1).2
        (floodFill sx sy w h fc ts v₀).2) := by
  refine ⟨?_, ?_, floodFill_visited_eq w h fc ts v₀ (sx, sy), ?_⟩
  · intro hs
    exact (floodFill_spec_good hs).2
  · intro hs
    exact congrArg Prod.snd (floodFill_spec_bad hs)
  · intro sx2 sy2
    rw [Finset.disjoint_left]
    intro a ha ha1
    have hgood := floodFill_area_good w h fc ts
      (floodFill sx sy w h fc ts v₀).1 (sx2, sy2) a ha
    have hmem : a ∈ (floodFill sx sy w h fc ts v₀).1 := by
      rw [floodFill_visited_eq w h fc ts v₀ (sx, sy)]
      exact Finset.mem_union_right _ ha1
    exact hgood.2.2.2 hmem

/-- Witness for C2 at a concrete instance: a 4 × 4 empty grid, seed
(1,1), asking about cell (2,2). -/
theorem floodFill_region_spec_witness :
    (2, 2) ∈ (floodFill 1 1 4 4 ∅ ∅ ∅).2 ↔ reaches 4 4 ∅ ∅ ∅ (1, 1) (2, 2) :=
  (floodFill_region_spec 1 1 4 4 ∅ ∅ ∅).1 (by decide) (2, 2)

/-- Reachability that is allowed to ignore a visited set implies plain
reachability. -/
lemma reaches_mono_empty {w h : ℕ} {fc ts v₀ : Finset Cell} {s c : Cell}
    (hr : reaches w h fc ts v₀ s c) : reaches w h fc ts ∅ s c := by
  refine Relation.ReflTransGen.mono ?_ hr
  intro a b hab
  exact ⟨⟨hab.1.1, hab.1.2.1, hab.1.2.2.1, Finset.not_mem_empty a⟩,
    ⟨hab.2.1.1, hab.2.1.2.1, hab.2.1.2.2.1, Finset.not_mem_empty b⟩,
    hab.2.2⟩

/-- When the whole component of the seed avoids the visited set,
reachability avoiding the visited set agrees with plain reachability. -/
lemma reaches_eq_of_component_disjoint {w h : ℕ} {fc ts v₀ : Finset Cell}
    {s : Cell} (hdisj : ∀ c, reaches w h fc ts ∅ s c → c ∉ v₀) :
    ∀ c, reaches w h fc ts v₀ s c ↔ reaches w h fc ts ∅ s c := by
  intro c
  refine ⟨reaches_mono_empty, fun hr => ?_⟩
  induction hr with
  | refl => exact Relation.ReflTransGen.refl
  | tail hprev hstep ih =>
    rename_i b c2
    have hbv : b ∉ v₀ := hdisj b hprev
    have hcv : c2 ∉ v₀ := hdisj c2 (hprev.tail hstep)
    exact ih.tail ⟨⟨hstep.1.1, hstep.1.2.1, hstep.1.2.2.1, hbv⟩,
      ⟨hstep.2.1.1, hstep.2.1.2.1, hstep.2.1.2.2.1, hcv⟩, hstep.2.2⟩

/-- Plain reachability is transitive along a reachable intermediate
cell: cells of one component see the same component. -/
lemma reaches_trans_iff {w h : ℕ} {fc ts : Finset Cell} {s c : Cell}
    (hsc : reaches w h fc ts ∅ s c) :
    ∀ d, reaches w h fc ts ∅ c d ↔ reaches w h fc ts ∅ s d := by
  intro d
  exact ⟨fun hcd => hsc.trans hcd, fun hsd => (reaches_symm hsc).trans hsd⟩

/-! ### Game state model

Pixel quantities are rationals; `Math.floor(p / gridSize)` becomes the
integer floor of a rational division. -/

/-- Grid cell of a pixel position: Math.floor(x / gridSize),
Math.floor(y / gridSize). -/
def cellOf (gridSize x y : ℚ) : Cell := (⌊x / gridSize⌋, ⌊y / gridSize⌋)

/-- The player record of types/game.ts: continuous position and
velocity. -/
structure Player where
  x : ℚ
  y : ℚ
  vx : ℚ
  vy : ℚ
deriving DecidableEq

/-- A hostile entity: continuous position and velocity. -/
structure Enemy where
  x : ℚ
  y : ℚ
  vx : ℚ
  vy : ℚ
deriving DecidableEq

/-- Lifecycle states of a pickup (SurpriseManager.ts). -/
inductive SurpriseState where
  | inactive
  | activated
  | magnetic
  | exploded
deriving DecidableEq

/-- A pickup record: lifecycle state, per-tick timer counters and
position (the string id is irrelevant to the claims and omitted
from equality-sensitive reasoning; it is modelled as a number). -/
structure Surprise where
  id : ℕ
  sstate : SurpriseState
  timer : ℕ
  maxTimer : ℕ
  x : ℚ
  y : ℚ
deriving DecidableEq

/-- The GameState snapshot threaded through every component. -/
structure GameState where
  player : Player
  enemies : List Enemy
  trail : List (ℚ × ℚ)
  filledCells : Finset Cell
  score : ℤ
  areaFilled : ℚ
  isAlive : Bool
  level : ℕ
  enemyCount : ℕ
  isLevelTransition : Bool
  lives : ℕ
  surprises : List Surprise
deriving DecidableEq

/-- Border test used across the source:
x == 0 || y == 0 || x == gridWidth-1 || y == gridHeight-1. -/
def isBorderCell (w h : ℕ) (c : Cell) : Prop :=
  c.1 = 0 ∨ c.2 = 0 ∨ c.1 = (w : ℤ) - 1 ∨ c.2 = (h : ℤ) - 1

instance (w h : ℕ) (c : Cell) : Decidable (isBorderCell w h c) := by
  unfold isBorderCell; infer_instance

/-- The four border rings of the grid; the set of cells added by
TrailManager.initializeBorder (lines 25-32) and by
LevelManager.resetLevelArea (lines 53-60), whose loops add every
in-bounds cell with x ∈ {0, w-1} or y ∈ {0, h-1}. -/
def borderRing (w h : ℕ) : Finset Cell :=
  (gridFinset w h).filter (fun c => isBorderCell w h c)

/-- TrailManager.initializeBorder: add the full border ring to the
filled-cell set. -/
def initBorder (w h : ℕ) (st : GameState) : GameState :=
  { st with filledCells := st.filledCells ∪ borderRing w h }

/-- The grid cells of the current trail plus the player's current cell
(TrailManager.completeArea lines 88-98): the trail-set merged before
region search. -/
def trailCellSet (gridSize : ℚ) (st : GameState) : Finset Cell :=
  (st.trail.map (fun p => cellOf gridSize p.1 p.2)).toFinset
    ∪ {cellOf gridSize st.player.x st.player.y}

/-- Whether some enemy's current grid cell lies in the given region
(TrailManager.completeArea lines 155-160). -/
def areaHasEnemy (gridSize : ℚ) (enemies : List Enemy)
    (area : Finset Cell) : Bool :=
  enemies.any (fun e => cellOf gridSize e.x e.y ∈ area)

/-- The interior scan order of TrailManager.completeArea lines 124-125:
y from 1 to gridHeight-2 (outer), x from 1 to gridWidth-2 (inner). -/
def interiorCells (w h : ℕ) : List Cell :=
  (List.range (h - 2)).flatMap (fun j =>
    (List.range (w - 2)).map (fun i => (((i + 1 : ℕ) : ℤ), ((j + 1 : ℕ) : ℤ))))

/-- The grid scan of TrailManager.completeArea lines 120-145: walk the
interior cells, skip visited or boundary cells, flood-fill from each
remaining seed threading one shared visited set, and collect each
non-empty area found. -/
def scanAreas (w h : ℕ) (boundary : Finset Cell) :
    List Cell → Finset Cell → List (Finset Cell)
      → Finset Cell × List (Finset Cell)
  | [], visited, areas => (visited, areas)
  | c :: rest, visited, areas =>
    if c ∈ visited ∨ c ∈ boundary then
      scanAreas w h boundary rest visited areas
    else
      let r := floodFill c.1 c.2 w h boundary ∅ visited
      scanAreas w h boundary rest r.1
        (if r.2 ≠ ∅ then areas ++ [r.2] else areas)

/-- Union of a list of regions. -/
def unionAreas (l : List (Finset Cell)) : Finset Cell := l.foldr (· ∪ ·) ∅

lemma mem_unionAreas {l : List (Finset Cell)} {c : Cell} :
    c ∈ unionAreas l ↔ ∃ A ∈ l, c ∈ A := by
  induction l with
  | nil => simp [unionAreas]
  | cons B t ih =>
    simp only [unionAreas, List.foldr_cons, Finset.mem_union, List.mem_cons]
    rw [show t.foldr (· ∪ ·) ∅ = unionAreas t from rfl] at *
    constructor
    · rintro (hB | ht)
      · exact ⟨B, Or.inl rfl, hB⟩
      · obtain ⟨A, hA, hc⟩ := ih.mp ht
        exact ⟨A, Or.inr hA, hc⟩
    · rintro ⟨A, hA | hA, hc⟩
      · exact Or.inl (hA ▸ hc)
      · exact Or.inr (ih.mpr ⟨A, hA, hc⟩)

lemma unionAreas_append (l : List (Finset Cell)) (A : Finset Cell) :
    unionAreas (l ++ [A]) = unionAreas l ∪ A := by
  ext c
  simp only [mem_unionAreas, Finset.mem_union, List.mem_append,
    List.mem_singleton]
  constructor
  · rintro ⟨B, hB | rfl, hc⟩
    · exact Or.inl ⟨B, hB, hc⟩
    · exact Or.inr hc
  · rintro (⟨B, hB, hc⟩ | hc)
    · exact ⟨B, Or.inl hB, hc⟩
    · exact ⟨A, Or.inr rfl, hc⟩

/-- The fill pass of TrailManager.completeArea lines 153-179: claim
every cell of each enemy-free area, counting the newly added cells. -/
def fillAreas (gridSize : ℚ) (enemies : List Enemy) :
    List (Finset Cell) → Finset Cell × ℕ → Finset Cell × ℕ
  | [], acc => acc
  | area :: rest, acc =>
    if areaHasEnemy gridSize enemies area then
      fillAreas gridSize enemies rest acc
    else
      fillAreas gridSize enemies rest
        (acc.1 ∪ area, acc.2 + (area \ acc.1).card)

/-- Scoring of TrailManager.completeArea lines 188-196:
floor(10 n + n^1.5 * 5 + (n ≥ 50 ? 20 n : 0)).  Since the non-integer
summand is 5 sqrt(n^3) and Nat.sqrt is the floor of the real square
root, the floor of the sum is 10 n + bonus + Nat.sqrt (25 n^3). -/
def completionScore (n : ℕ) : ℤ :=
  10 * n + Nat.sqrt (25 * n ^ 3) + (if 50 ≤ n then 20 * n else 0)

/-- TrailManager.completeArea (first revision, lines 83-204): merge the
trail cells and player cell into the filled set, flood-fill the interior
from every unvisited empty cell, claim enemy-free areas, score and
recompute the claimed percentage. -/
def completeArea (gridSize : ℚ) (w h : ℕ) (st : GameState) : GameState :=
  let trailSet := trailCellSet gridSize st
  let filled1 := st.filledCells ∪ trailSet
  let scan := scanAreas w h filled1 (interiorCells w h) ∅ []
  let fill := fillAreas gridSize st.enemies scan.2 (filled1, 0)
  { st with
    filledCells := fill.1
    score := if 0 < fill.2 then st.score + completionScore fill.2 else st.score
    areaFilled := ((fill.1.card : ℚ) / ((w : ℚ) * (h : ℚ))) * 100 }

lemma mem_interiorCells {w h : ℕ} {c : Cell} :
    c ∈ interiorCells w h ↔
      0 < c.1 ∧ c.1 < (w : ℤ) - 1 ∧ 0 < c.2 ∧ c.2 < (h : ℤ) - 1 := by
  cases c with
  | mk x y =>
    rw [interiorCells, List.mem_flatMap]
    constructor
    · rintro ⟨j, hj, hmem⟩
      rw [List.mem_range] at hj
      rw [List.mem_map] at hmem
      obtain ⟨i, hi, heq⟩ := hmem
      rw [List.mem_range] at hi
      have hx := congrArg Prod.fst heq
      have hy := congrArg Prod.snd heq
      simp only [] at hx hy
      omega
    · rintro ⟨hx0, hxw, hy0, hyh⟩
      refine ⟨(y - 1).toNat, List.mem_range.mpr (by omega), ?_⟩
      rw [List.mem_map]
      refine ⟨(x - 1).toNat, List.mem_range.mpr (by omega), ?_⟩
      have h1 : (((x - 1).toNat + 1 : ℕ) : ℤ) = x := by omega
      have h2 : (((y - 1).toNat + 1 : ℕ) : ℤ) = y := by omega
      rw [h1, h2]

/-- Invariants of the interior scan: the threaded visited set is always
the union of the found areas, every found area is the exact connected
component (with respect to the boundary) of each of its members, every
visited cell is occupiable, and every occupiable scanned cell ends up
visited. -/
lemma scanAreas_spec (w h : ℕ) (B : Finset Cell) :
    ∀ (l : List Cell) (v : Finset Cell) (areas : List (Finset Cell)),
    (∀ c ∈ l, inBounds w h c) →
    v = unionAreas areas →
    (∀ A ∈ areas, ∀ c ∈ A, goodCell w h B ∅ ∅ c) →
    (∀ A ∈ areas, ∀ c ∈ A, ∀ d, d ∈ A ↔ reaches w h B ∅ ∅ c d) →
    v ⊆ (scanAreas w h B l v areas).1 ∧
    (scanAreas w h B l v areas).1 = unionAreas (scanAreas w h B l v areas).2 ∧
    (∀ A ∈ (scanAreas w h B l v areas).2, ∀ c ∈ A, goodCell w h B ∅ ∅ c) ∧
    (∀ A ∈ (scanAreas w h B l v areas).2, ∀ c ∈ A, ∀ d,
        d ∈ A ↔ reaches w h B ∅ ∅ c d) ∧
    (∀ c ∈ l, goodCell w h B ∅ ∅ c → c ∈ (scanAreas w h B l v areas).1) := by
  intro l
  induction l with
  | nil =>
    intro v areas _ h2 h3 h4
    rw [scanAreas]
    exact ⟨Finset.Subset.refl v, h2, h3, h4, fun c hc => absurd hc
      (List.not_mem_nil c)⟩
  | cons c rest ih =>
    intro v areas hl h2 h3 h4
    have hrest : ∀ x ∈ rest, inBounds w h x :=
      fun x hx => hl x (List.mem_cons_of_mem c hx)
    rw [scanAreas]
    by_cases hskip : c ∈ v ∨ c ∈ B
    · rw [if_pos hskip]
      obtain ⟨m, r2, r3, r4, r5⟩ := ih v areas hrest h2 h3 h4
      refine ⟨m, r2, r3, r4, ?_⟩
      intro x hx hgx
      rcases List.mem_cons.mp hx with rfl | hx2
      · rcases hskip with hxv | hxB
        · exact m hxv
        · exact absurd hxB hgx.2.1
      · exact r5 x hx2 hgx
    · rw [if_neg hskip]
      push_neg at hskip
      obtain ⟨hcv, hcB⟩ := hskip
      have hgood : goodCell w h B ∅ v c :=
        ⟨hl c (List.mem_cons_self c rest), hcB, Finset.not_mem_empty c, hcv⟩
      have hclosed : ∀ x ∈ v, ∀ d, reaches w h B ∅ ∅ x d → d ∈ v := by
        intro x hxv d hxd
        rw [h2, mem_unionAreas] at hxv
        obtain ⟨A, hA, hxA⟩ := hxv
        rw [h2, mem_unionAreas]
        exact ⟨A, hA, (h4 A hA x hxA d).mpr hxd⟩
      have hdisj : ∀ d, reaches w h B ∅ ∅ c d → d ∉ v := by
        intro d hd hdv
        exact hcv (hclosed d hdv c (reaches_symm hd))
      obtain ⟨hv1, hmem⟩ := floodFill_spec_good hgood
      have hiff : ∀ d, d ∈ (floodFill c.1 c.2 w h B ∅ v).2
          ↔ reaches w h B ∅ ∅ c d := by
        intro d
        rw [hmem d, reaches_eq_of_component_disjoint hdisj d]
      have hcmem : c ∈ (floodFill c.1 c.2 w h B ∅ v).2 :=
        (hiff c).mpr Relation.ReflTransGen.refl
      have hne : (floodFill c.1 c.2 w h B ∅ v).2 ≠ ∅ := by
        intro he
        rw [he] at hcmem
        exact Finset.not_mem_empty c hcmem
      simp only [if_pos hne]
      have hnew2 : (floodFill c.1 c.2 w h B ∅ v).1
          = unionAreas (areas ++ [(floodFill c.1 c.2 w h B ∅ v).2]) := by
        rw [unionAreas_append, ← h2, hv1]
      have hnew3 : ∀ A ∈ areas ++ [(floodFill c.1 c.2 w h B ∅ v).2],
          ∀ x ∈ A, goodCell w h B ∅ ∅ x := by
        intro A hA x hxA
        rcases List.mem_append.mp hA with hA2 | hA2
        · exact h3 A hA2 x hxA
        · rw [List.mem_singleton] at hA2
          subst hA2
          have := floodFill_area_good w h B ∅ v c x hxA
          exact ⟨this.1, this.2.1, this.2.2.1, Finset.not_mem_empty x⟩
      have hnew4 : ∀ A ∈ areas ++ [(floodFill c.1 c.2 w h B ∅ v).2],
          ∀ x ∈ A, ∀ d, d ∈ A ↔ reaches w h B ∅ ∅ x d := by
        intro A hA x hxA d
        rcases List.mem_append.mp hA with hA2 | hA2
        · exact h4 A hA2 x hxA d
        · rw [List.mem_singleton] at hA2
          subst hA2
          have hcx : reaches w h B ∅ ∅ c x := (hiff x).mp hxA
          rw [hiff d, ← reaches_trans_iff hcx d]
      obtain ⟨m, r2, r3, r4, r5⟩ := ih (floodFill c.1 c.2 w h B ∅ v).1
        (areas ++ [(floodFill c.1 c.2 w h B ∅ v).2]) hrest hnew2 hnew3 hnew4
      have hsubv : v ⊆ (floodFill c.1 c.2 w h B ∅ v).1 := by
        rw [hv1]; exact Finset.subset_union_left
      refine ⟨hsubv.trans m, r2, r3, r4, ?_⟩
      intro x hx hgx
      rcases List.mem_cons.mp hx with rfl | hx2
      · exact m (by rw [hv1]; exact Finset.mem_union_right _ hcmem)
      · exact r5 x hx2 hgx

/-- Membership in the result of the fill pass: a cell is claimed after
the pass iff it was already claimed or lies in some enemy-free area. -/
lemma fillAreas_mem (gridSize : ℚ) (enemies : List Enemy) :
    ∀ (l : List (Finset Cell)) (acc : Finset Cell × ℕ) (c : Cell),
    c ∈ (fillAreas gridSize enemies l acc).1 ↔
      c ∈ acc.1 ∨ ∃ A ∈ l, areaHasEnemy gridSize enemies A = false ∧ c ∈ A := by
  intro l
  induction l with
  | nil =>
    intro acc c
    rw [fillAreas]
    simp
  | cons A rest ih =>
    intro acc c
    rw [fillAreas]
    by_cases hA : areaHasEnemy gridSize enemies A = true
    · rw [if_pos hA, ih]
      constructor
      · rintro (hacc | ⟨A2, hA2, hfe, hc⟩)
        · exact Or.inl hacc
        · exact Or.inr ⟨A2, List.mem_cons_of_mem A hA2, hfe, hc⟩
      · rintro (hacc | ⟨A2, hA2, hfe, hc⟩)
        · exact Or.inl hacc
        · rcases List.mem_cons.mp hA2 with rfl | hA3
          · rw [hA] at hfe; exact absurd hfe (by simp)
          · exact Or.inr ⟨A2, hA3, hfe, hc⟩
    · rw [if_neg hA, ih]
      rw [Bool.not_eq_true] at hA
      simp only [Finset.mem_union]
      constructor
      · rintro ((hacc | hcA) | ⟨A2, hA2, hfe, hc⟩)
        · exact Or.inl hacc
        · exact Or.inr ⟨A, List.mem_cons_self A rest, hA, hcA⟩
        · exact Or.inr ⟨A2, List.mem_cons_of_mem A hA2, hfe, hc⟩
      · rintro (hacc | ⟨A2, hA2, hfe, hc⟩)
        · exact Or.inl (Or.inl hacc)
        · rcases List.mem_cons.mp hA2 with rfl | hA3
          · exact Or.inl (Or.inr hc)
          · exact Or.inr ⟨A2, hA3, hfe, hc⟩

lemma areaHasEnemy_eq_false_iff {gridSize : ℚ} {enemies : List Enemy}
    {A : Finset Cell} :
    areaHasEnemy gridSize enemies A = false ↔
      ∀ e ∈ enemies, cellOf gridSize e.x e.y ∉ A := by
  simp [areaHasEnemy, List.any_eq_false]

/-- C1: completeArea merges the trail cells plus the player's current
cell into the claimed set before the region search runs, and a free
in-bounds cell ends up claimed exactly when its maximal connected empty
region (with the merged set as boundary) contains no hostile entity's
current grid cell; cells of enemy-occupied regions stay open. -/
theorem completeArea_spec (gridSize : ℚ) (w h : ℕ) (st : GameState)
    (hb : borderRing w h ⊆ st.filledCells) :
    st.filledCells ∪ trailCellSet gridSize st
      ⊆ (completeArea gridSize w h st).filledCells ∧
    (∀ c, inBounds w h c → c ∉ st.filledCells ∪ trailCellSet gridSize st →
      (c ∈ (completeArea gridSize w h st).filledCells ↔
        ∀ e ∈ st.enemies,
          ¬ reaches w h (st.filledCells ∪ trailCellSet gridSize st) ∅ ∅ c
            (cellOf gridSize e.x e.y))) := by
  set F1 := st.filledCells ∪ trailCellSet gridSize st with hF1
  have hfc : (completeArea gridSize w h st).filledCells
      = (fillAreas gridSize st.enemies
          (scanAreas w h F1 (interiorCells w h) ∅ []).2 (F1, 0)).1 := rfl
  have hl : ∀ c ∈ interiorCells w h, inBounds w h c := by
    intro c hc
    rw [mem_interiorCells] at hc
    exact ⟨by omega, by omega, by omega, by omega⟩
  obtain ⟨m, r2, r3, r4, r5⟩ := scanAreas_spec w h F1 (interiorCells w h) ∅ []
    hl rfl (by simp) (by simp)
  constructor
  · intro c hc
    rw [hfc, fillAreas_mem]
    exact Or.inl hc
  · intro c hcin hcF1
    have hgood : goodCell w h F1 ∅ ∅ c :=
      ⟨hcin, hcF1, Finset.not_mem_empty c, Finset.not_mem_empty c⟩
    have hnb : ¬ isBorderCell w h c := by
      intro hbc
      exact hcF1 (Finset.mem_union_left _
        (hb (Finset.mem_filter.mpr ⟨mem_gridFinset.mpr hcin, hbc⟩)))
    have hcint : c ∈ interiorCells w h := by
      rw [mem_interiorCells]
      obtain ⟨a1, a2, a3, a4⟩ := hcin
      rw [isBorderCell] at hnb
      push_neg at hnb
      obtain ⟨b1, b2, b3, b4⟩ := hnb
      exact ⟨by omega, by omega, by omega, by omega⟩
    have hv : c ∈ (scanAreas w h F1 (interiorCells w h) ∅ []).1 :=
      r5 c hcint hgood
    rw [r2, mem_unionAreas] at hv
    obtain ⟨A, hA, hcA⟩ := hv
    have hAcomp := r4 A hA c hcA
    rw [hfc, fillAreas_mem]
    constructor
    · rintro (hcf | ⟨A2, hA2, hfe, hcA2⟩)
      · exact absurd hcf hcF1
      · have hA2comp := r4 A2 hA2 c hcA2
        intro e he hre
        exact (areaHasEnemy_eq_false_iff.mp hfe) e he ((hA2comp _).mpr hre)
    · intro hnoe
      refine Or.inr ⟨A, hA, areaHasEnemy_eq_false_iff.mpr ?_, hcA⟩
      intro e he hmem
      exact hnoe e he ((hAcomp _).mp hmem)

/-- A small concrete board: 5 × 5 grid with claimed border, player at
cell (1,1), no trail, no enemies. -/
def sampleState : GameState :=
  { player := ⟨1, 1, 0, 0⟩
    enemies := []
    trail := []
    filledCells := borderRing 5 5
    score := 0
    areaFilled := 0
    isAlive := true
    level := 1
    enemyCount := 1
    isLevelTransition := false
    lives := 2
    surprises := [] }

/-- Witness for C1: the merge part of the claim evaluated on the sample
board. -/
theorem completeArea_spec_witness :
    sampleState.filledCells ∪ trailCellSet 1 sampleState
      ⊆ (completeArea 1 5 5 sampleState).filledCells :=
  (completeArea_spec 1 5 5 sampleState (Finset.Subset.refl _)).1

/-- TrailManager.updateTrail (first revision, lines 37-81).  The
TrailManager field lastPlayerPosition is passed and returned
explicitly.  Returns the updated lastPlayerPosition and game state. -/
def updateTrail (gridSize : ℚ) (w h : ℕ) (lastPlayerPosition : Option Cell)
    (st : GameState) : Option Cell × GameState :=
  let cur := cellOf gridSize st.player.x st.player.y
  if lastPlayerPosition = some cur then
    (lastPlayerPosition, st)
  else
    let isOnBorder := isBorderCell w h cur
    let isOnFilled := cur ∈ st.filledCells
    if isOnBorder ∨ isOnFilled then
      let st1 := if st.trail ≠ [] then completeArea gridSize w h st else st
      (some cur, { st1 with trail := [] })
    else
      let st1 := { st with score := st.score + 1 }
      if st.trail.any
          (fun p => cellOf gridSize p.1 p.2 = cur) then
        (some cur, st1)
      else
        (some cur,
          { st1 with trail := st.trail ++ [(cur.1 * gridSize, cur.2 * gridSize)] })

/-- The grid cells of the trail entries, in order. -/
def trailCells (gridSize : ℚ) (st : GameState) : List Cell :=
  st.trail.map (fun p => cellOf gridSize p.1 p.2)

/-- A trail whose entries are pairwise distinct in-bounds grid cells is
no longer than the number of grid cells. -/
lemma trail_length_le {gridSize : ℚ} {w h : ℕ} {st : GameState}
    (hnd : (trailCells gridSize st).Nodup)
    (hbnd : ∀ c ∈ trailCells gridSize st, inBounds w h c) :
    st.trail.length ≤ w * h := by
  have hlen : st.trail.length = (trailCells gridSize st).length := by
    rw [trailCells, List.length_map]
  rw [hlen, ← List.toFinset_card_of_nodup hnd, ← gridFinset_card w h]
  apply Finset.card_le_card
  intro c hc
  rw [List.mem_toFinset] at hc
  rw [mem_gridFinset]
  exact hbnd c hc

/-- C9: the no-op guard of updateTrail (lines 44-51).  When the player's
grid cell equals the cell recorded on the previous tick, the call leaves
the full game state (in particular score and trail length) and the
recorded cell unchanged. -/
theorem updateTrail_noop (gridSize : ℚ) (w h : ℕ) (st : GameState) :
    updateTrail gridSize w h
        (some (cellOf gridSize st.player.x st.player.y)) st
      = (some (cellOf gridSize st.player.x st.player.y), st) ∧
    (updateTrail gridSize w h
        (some (cellOf gridSize st.player.x st.player.y)) st).2.score
      = st.score ∧
    (updateTrail gridSize w h
        (some (cellOf gridSize st.player.x st.player.y)) st).2.trail.length
      = st.trail.length := by
  have hstep : updateTrail gridSize w h
      (some (cellOf gridSize st.player.x st.player.y)) st
      = (some (cellOf gridSize st.player.x st.player.y), st) := by
    rw [updateTrail, if_pos rfl]
  exact ⟨hstep, by rw [hstep], by rw [hstep]⟩

/-- A state in which the player re-enters the first cell of its own
trail: grid size 1, 10 × 10 grid, trail through cells (1,1), (2,1),
(3,1), player back on pixel (1,1) = cell (1,1). -/
def trailReentryState : GameState :=
  { player := ⟨1, 1, 0, 0⟩
    enemies := []
    trail := [(1, 1), (2, 1), (3, 1)]
    filledCells := ∅
    score := 0
    areaFilled := 0
    isAlive := true
    level := 1
    enemyCount := 1
    isLevelTransition := false
    lives := 2
    surprises := [] }

/-- Counterexample to C8: the player is in open territory, its grid cell
changed (previous cell (1,2)), and the current cell (1,1) differs from
the cell of the trail's last entry (3,1) — yet updateTrail appends
nothing, because the dedup check runs against every trail entry, not
just the last one. -/
theorem updateTrail_lastonly_dedup_false :
    (updateTrail 1 10 10 (some (1, 2)) trailReentryState).2.trail
        = trailReentryState.trail ∧
    cellOf 1 trailReentryState.player.x trailReentryState.player.y
        = (1, 1) ∧
    (trailCells 1 trailReentryState).getLast? = some (3, 1) ∧
    ¬ isBorderCell 10 10 (1, 1) ∧
    (1, 1) ∉ trailReentryState.filledCells := by
  refine ⟨?_, ?_, ?_, by decide, by simp [trailReentryState]⟩
  · simp [updateTrail, trailReentryState, cellOf, isBorderCell]
  · simp [trailReentryState, cellOf]
  · simp only [trailCells, trailReentryState, cellOf, List.map_cons,
      List.map_nil]
    norm_num

/-- C8 as amended: in open territory with a changed grid cell, the
current cell is appended iff no existing trail entry (anywhere in the
trail, not merely the last one) already maps to the same grid cell. -/
theorem updateTrail_dedup_spec (gridSize : ℚ) (w h : ℕ)
    (lp : Option Cell) (st : GameState)
    (hch : lp ≠ some (cellOf gridSize st.player.x st.player.y))
    (hopen : ¬ isBorderCell w h (cellOf gridSize st.player.x st.player.y))
    (hfill : cellOf gridSize st.player.x st.player.y ∉ st.filledCells) :
    (updateTrail gridSize w h lp st).2.trail =
      if st.trail.any (fun p => cellOf gridSize p.1 p.2
          = cellOf gridSize st.player.x st.player.y) then st.trail
      else st.trail ++
        [(((cellOf gridSize st.player.x st.player.y).1 : ℚ) * gridSize,
          ((cellOf gridSize st.player.x st.player.y).2 : ℚ) * gridSize)] := by
  rw [updateTrail, if_neg hch, if_neg (not_or.mpr ⟨hopen, hfill⟩)]
  by_cases hany : st.trail.any (fun p => cellOf gridSize p.1 p.2
      = cellOf gridSize st.player.x st.player.y)
  · simp only [if_pos hany]
  · simp only [if_neg hany]

/-- Witness for C8 (amended) on the re-entry state: the trail stays as
it was. -/
theorem updateTrail_dedup_spec_witness :
    (updateTrail 1 10 10 (some (1, 2)) trailReentryState).2.trail =
      if trailReentryState.trail.any (fun p => cellOf 1 p.1 p.2
          = cellOf 1 trailReentryState.player.x trailReentryState.player.y)
      then trailReentryState.trail
      else trailReentryState.trail ++
        [(((cellOf 1 trailReentryState.player.x
              trailReentryState.player.y).1 : ℚ) * 1,
          ((cellOf 1 trailReentryState.player.x
              trailReentryState.player.y).2 : ℚ) * 1)] :=
  updateTrail_dedup_spec 1 10 10 (some (1, 2)) trailReentryState
    (by simp [trailReentryState, cellOf])
    (by simp [trailReentryState, cellOf, isBorderCell])
    (by simp [trailReentryState, cellOf])

/-- C10: updateTrail preserves the invariant that trail entries are
pairwise distinct in-bounds grid cells, and under it the trail length
never exceeds the total number of grid cells. -/
theorem updateTrail_trail_nodup (gridSize : ℚ) (w h : ℕ)
    (lp : Option Cell) (st : GameState)
    (hgs : 0 < gridSize)
    (hnd : (trailCells gridSize st).Nodup)
    (hbnd : ∀ c ∈ trailCells gridSize st, inBounds w h c)
    (hp : inBounds w h (cellOf gridSize st.player.x st.player.y)) :
    (trailCells gridSize (updateTrail gridSize w h lp st).2).Nodup ∧
    (∀ c ∈ trailCells gridSize (updateTrail gridSize w h lp st).2,
        inBounds w h c) ∧
    (updateTrail gridSize w h lp st).2.trail.length ≤ w * h := by
  rw [updateTrail]
  by_cases hch : lp = some (cellOf gridSize st.player.x st.player.y)
  · rw [if_pos hch]
    exact ⟨hnd, hbnd, trail_length_le hnd hbnd⟩
  · rw [if_neg hch]
    by_cases hstop : isBorderCell w h (cellOf gridSize st.player.x st.player.y)
        ∨ cellOf gridSize st.player.x st.player.y ∈ st.filledCells
    · rw [if_pos hstop]
      refine ⟨by simp [trailCells], by simp [trailCells], ?_⟩
      simp only [List.length_nil]
      exact Nat.zero_le _
    · rw [if_neg hstop]
      by_cases hany : st.trail.any (fun p => cellOf gridSize p.1 p.2
          = cellOf gridSize st.player.x st.player.y)
      · simp only [if_pos hany]
        exact ⟨hnd, hbnd, trail_length_le hnd hbnd⟩
      · simp only [if_neg hany]
        have hnotin : cellOf gridSize st.player.x st.player.y
            ∉ trailCells gridSize st := by
          intro hmem
          rw [trailCells, List.mem_map] at hmem
          obtain ⟨p, hpmem, hpc⟩ := hmem
          have hany2 : st.trail.any (fun p => decide (cellOf gridSize p.1 p.2
              = cellOf gridSize st.player.x st.player.y)) = false :=
            Bool.eq_false_iff.mpr hany
          rw [List.any_eq_false] at hany2
          have := hany2 p hpmem
          simp only [decide_eq_true_eq] at this
          exact this hpc
        have hcellnew : cellOf gridSize
            (((cellOf gridSize st.player.x st.player.y).1 : ℚ) * gridSize)
            (((cellOf gridSize st.player.x st.player.y).2 : ℚ) * gridSize)
            = cellOf gridSize st.player.x st.player.y := by
          rw [cellOf]
          have hg : gridSize ≠ 0 := ne_of_gt hgs
          rw [mul_div_cancel_right₀ _ hg, mul_div_cancel_right₀ _ hg,
            Int.floor_intCast, Int.floor_intCast]
        have hcells : trailCells gridSize
            { st with
              score := st.score + 1,
              trail := st.trail ++
                [(((cellOf gridSize st.player.x st.player.y).1 : ℚ) * gridSize,
                  ((cellOf gridSize st.player.x st.player.y).2 : ℚ) * gridSize)] }
            = trailCells gridSize st
              ++ [cellOf gridSize st.player.x st.player.y] := by
          simp only [trailCells, List.map_append, List.map_cons, List.map_nil]
          rw [hcellnew]
        refine ⟨?_, ?_, ?_⟩
        · rw [hcells]
          rw [List.nodup_append]
          exact ⟨hnd, List.nodup_singleton _, by
            intro a ha hb
            rw [List.mem_singleton] at hb
            subst hb
            exact hnotin ha⟩
        · rw [hcells]
          intro c hc
          rcases List.mem_append.mp hc with hc2 | hc2
          · exact hbnd c hc2
          · rw [List.mem_singleton] at hc2
            subst hc2
            exact hp
        · have hnd2 : (trailCells gridSize st
              ++ [cellOf gridSize st.player.x st.player.y]).Nodup := by
            rw [List.nodup_append]
            exact ⟨hnd, List.nodup_singleton _, by
              intro a ha hb
              rw [List.mem_singleton] at hb
              subst hb
              exact hnotin ha⟩
          have hbnd2 : ∀ c ∈ trailCells gridSize st
              ++ [cellOf gridSize st.player.x st.player.y], inBounds w h c := by
            intro c hc
            rcases List.mem_append.mp hc with hc2 | hc2
            · exact hbnd c hc2
            · rw [List.mem_singleton] at hc2
              subst hc2
              exact hp
          have hlen := @trail_length_le gridSize w h { st with
              score := st.score + 1,
              trail := st.trail ++
                [(((cellOf gridSize st.player.x st.player.y).1 : ℚ) * gridSize,
                  ((cellOf gridSize st.player.x st.player.y).2 : ℚ) * gridSize)] }
            (by rw [hcells]; exact hnd2)
            (by rw [hcells]; exact hbnd2)
          simpa using hlen

/-- Witness for C10 on the re-entry state. -/
theorem updateTrail_trail_nodup_witness :
    (trailCells 1 (updateTrail 1 10 10 none trailReentryState).2).Nodup :=
  (updateTrail_trail_nodup 1 10 10 none trailReentryState (by decide)
    (by simp [trailCells, trailReentryState, cellOf]; decide)
    (by simp [trailCells, trailReentryState, cellOf, inBounds])
    (by simp [trailReentryState, cellOf, inBounds])).1

/-! ### Collision detector -/

/-- CollisionDetector.checkCollisions (CollisionDetector.ts lines
11-53).  The source compares Math.sqrt(dx*dx + dy*dy) against a
nonnegative threshold; the embedding compares the squares, which is
strictly equivalent since sqrt is monotone.  The trail check measures
from the enemy's center point (enemy + gridSize/2) to the stored trail
pixel position, which is the trail cell's top-left corner. -/
def checkCollisions (gridSize : ℚ) (st : GameState) : GameState :=
  let playerGrid := cellOf gridSize st.player.x st.player.y
  if playerGrid ∈ st.filledCells then st
  else
    let hitPlayer := st.enemies.any (fun e =>
      decide ((e.x - st.player.x) ^ 2 + (e.y - st.player.y) ^ 2
        < (gridSize * (6 / 10)) ^ 2))
    let hitTrail :=
      if 0 < st.trail.length then
        st.enemies.any (fun e => st.trail.any (fun p =>
          decide ((e.x + gridSize / 2 - p.1) ^ 2
              + (e.y + gridSize / 2 - p.2) ^ 2
            < (gridSize * (7 / 10)) ^ 2)))
      else false
    { st with isAlive := st.isAlive && !hitPlayer && !hitTrail }

/-- C4 as amended: standing on a claimed cell short-circuits the whole
check (the state is returned untouched); otherwise a live player is
marked not-alive iff some enemy is within 0.6 gridSize of the player or
some enemy's center is within 0.7 gridSize of some trail entry's stored
position (the trail cell's top-left corner) — both checks evaluated,
either sufficient. -/
theorem checkCollisions_spec (gridSize : ℚ) (st : GameState) :
    (cellOf gridSize st.player.x st.player.y ∈ st.filledCells →
      checkCollisions gridSize st = st) ∧
    (cellOf gridSize st.player.x st.player.y ∉ st.filledCells →
      st.isAlive = true →
      ((checkCollisions gridSize st).isAlive = false ↔
        (∃ e ∈ st.enemies,
          (e.x - st.player.x) ^ 2 + (e.y - st.player.y) ^ 2
            < (gridSize * (6 / 10)) ^ 2) ∨
        (∃ e ∈ st.enemies, ∃ p ∈ st.trail,
          (e.x + gridSize / 2 - p.1) ^ 2 + (e.y + gridSize / 2 - p.2) ^ 2
            < (gridSize * (7 / 10)) ^ 2))) := by
  constructor
  · intro hmem
    rw [checkCollisions, if_pos hmem]
  · intro hmem halive
    rw [checkCollisions, if_neg hmem]
    simp only [halive, Bool.true_and, Bool.and_eq_false_iff,
      Bool.not_eq_false', List.any_eq_true, decide_eq_true_eq]
    constructor
    · rintro (hp | ht)
      · exact Or.inl hp
      · by_cases htr : 0 < st.trail.length
        · rw [if_pos htr] at ht
          simp only [List.any_eq_true, decide_eq_true_eq] at ht
          exact Or.inr ht
        · rw [if_neg htr] at ht
          exact absurd ht (by simp)
    · rintro (hp | ⟨e, he, p, hpmem, hlt⟩)
      · exact Or.inl hp
      · refine Or.inr ?_
        have htr : 0 < st.trail.length :=
          List.length_pos_of_mem hpmem
        rw [if_pos htr]
        simp only [List.any_eq_true, decide_eq_true_eq]
        exact ⟨e, he, p, hpmem, hlt⟩

/-- A state separating the code's trail-collision geometry from the
claim's: one enemy whose center (3, 2.5) is within 0.7 of the trail
cell's center (2.5, 2.5) but not of its stored corner (2, 2); the player
is far away and in open territory. -/
def trailCenterState : GameState :=
  { player := ⟨8, 8, 0, 0⟩
    enemies := [⟨5 / 2, 2, 0, 0⟩]
    trail := [(2, 2)]
    filledCells := ∅
    score := 0
    areaFilled := 0
    isAlive := true
    level := 1
    enemyCount := 1
    isLevelTransition := false
    lives := 2
    surprises := [] }

/-- Counterexample to C4 as stated: with grid size 1, the enemy's
distance to the trail cell's center is 0.5 < 0.7, so the claim requires
the player to be marked not-alive, but checkCollisions leaves the
player alive — the code measures to the trail cell's stored top-left
corner, not its center. -/
theorem checkCollisions_trailcenter_false :
    (checkCollisions 1 trailCenterState).isAlive = true ∧
    trailCenterState.isAlive = true ∧
    cellOf 1 trailCenterState.player.x trailCenterState.player.y
      ∉ trailCenterState.filledCells ∧
    (∃ e ∈ trailCenterState.enemies, ∃ p ∈ trailCenterState.trail,
      (e.x + 1 / 2 - (p.1 + 1 / 2)) ^ 2 + (e.y + 1 / 2 - (p.2 + 1 / 2)) ^ 2
        < ((1 : ℚ) * (7 / 10)) ^ 2) := by
  refine ⟨?_, rfl, by simp [trailCenterState], ?_⟩
  · simp only [checkCollisions, trailCenterState, cellOf]
    norm_num
  · refine ⟨⟨5 / 2, 2, 0, 0⟩, by simp [trailCenterState], (2, 2),
      by simp [trailCenterState], by norm_num⟩

/-- Witness for C4 (amended) on the trail-center state: the live player
in open territory is left alive iff neither squared-distance check
fires. -/
theorem checkCollisions_spec_witness :
    (checkCollisions 1 trailCenterState).isAlive = false ↔
      (∃ e ∈ trailCenterState.enemies,
        (e.x - trailCenterState.player.x) ^ 2
            + (e.y - trailCenterState.player.y) ^ 2
          < ((1 : ℚ) * (6 / 10)) ^ 2) ∨
      (∃ e ∈ trailCenterState.enemies, ∃ p ∈ trailCenterState.trail,
        (e.x + 1 / 2 - p.1) ^ 2 + (e.y + 1 / 2 - p.2) ^ 2
          < ((1 : ℚ) * (7 / 10)) ^ 2) :=
  (checkCollisions_spec 1 trailCenterState).2
    (by simp [trailCenterState, cellOf]) rfl

/-! ### Hostile-entity physics (predictive-bounce revision of
EnemyPhysics) -/

/-- MIN_SPEED = 0.3. -/
def MIN_SPEED : ℚ := 3 / 10

/-- MAX_SPEED = 5.5. -/
def MAX_SPEED : ℚ := 11 / 2

/-- FILLED_BOUNCE_BOOST = 3.2. -/
def FILLED_BOUNCE_BOOST : ℚ := 16 / 5

/-- ACCELERATION_BOOST = 1.8. -/
def ACCELERATION_BOOST : ℚ := 9 / 5

/-- The five sampled points of checkFilledAreaCollision (lines 203-213):
the projected next position and four offsets by the enemy radius
gridSize * 0.4. -/
def samplePoints (gridSize : ℚ) (e : Enemy) : List (ℚ × ℚ) :=
  let enemyRadius := gridSize * (4 / 10)
  let nextX := e.x + e.vx
  let nextY := e.y + e.vy
  [(nextX, nextY), (nextX - enemyRadius, nextY), (nextX + enemyRadius, nextY),
    (nextX, nextY - enemyRadius), (nextX, nextY + enemyRadius)]

/-- EnemyPhysics.checkFilledAreaCollision (lines 197-238): scan the
sampled points, skip out-of-bounds cells, and on the first point whose
cell is claimed return the contact vector from the cell's center to the
enemy (the source divides it by its length to obtain the contact
normal; the normalization is applied separately since the length is a
square root). -/
def checkFilledAreaCollision (gridSize : ℚ) (w h : ℕ)
    (filled : Finset Cell) (e : Enemy) : Option (ℚ × ℚ) :=
  (samplePoints gridSize e).findSome? (fun p =>
    let g := cellOf gridSize p.1 p.2
    if inBounds w h g ∧ g ∈ filled then
      some (e.x - ((g.1 : ℚ) * gridSize + gridSize / 2),
            e.y - ((g.2 : ℚ) * gridSize + gridSize / 2))
    else none)

/-- Normalization of the contact vector (line 231): divide by the given
length when positive, else fall back to (1, 0).  The length is passed
explicitly; the caller constrains it to be the square root of the
squared norm. -/
def normalizeContact (d : ℚ) (v : ℚ × ℚ) : ℚ × ℚ :=
  if 0 < d then (v.1 / d, v.2 / d) else (1, 0)

/-- Reflection about a contact normal (lines 246-248): the incoming
vector minus twice its projection onto the normal. -/
def reflect (v n : ℚ × ℚ) : ℚ × ℚ :=
  (v.1 - 2 * (v.1 * n.1 + v.2 * n.2) * n.1,
   v.2 - 2 * (v.1 * n.1 + v.2 * n.2) * n.2)

/-- Rotation by the jitter angle whose cosine and sine are jc and js
(lines 253-260). -/
def rotate (jc js : ℚ) (v : ℚ × ℚ) : ℚ × ℚ :=
  (v.1 * jc - v.2 * js, v.1 * js + v.2 * jc)

/-- Componentwise scaling of a velocity. -/
def scale (a : ℚ) (v : ℚ × ℚ) : ℚ × ℚ := (a * v.1, a * v.2)

/-- EnemyPhysics.bounceFromFilledArea (lines 240-268) up to the final
accelerateEnemy call: reflect the velocity about the contact normal,
scale by FILLED_BOUNCE_BOOST, then rotate by the random jitter angle. -/
def bounceFromFilledArea (e : Enemy) (n : ℚ × ℚ) (jc js : ℚ) : Enemy :=
  { e with
    vx := (rotate jc js (scale FILLED_BOUNCE_BOOST (reflect (e.vx, e.vy) n))).1
    vy := (rotate jc js (scale FILLED_BOUNCE_BOOST (reflect (e.vx, e.vy) n))).2 }

/-- EnemyPhysics.accelerateEnemy (lines 356-376): scale the velocity by
ACCELERATION_BOOST while under MAX_SPEED, capping the result at
MAX_SPEED.  The entry speed s is passed explicitly (the source computes
it as a square root), and the post-boost speed recomputed on line 367
is then s * ACCELERATION_BOOST exactly. -/
def accelerateEnemy (e : Enemy) (s : ℚ) : Enemy :=
  if s < MAX_SPEED then
    if MAX_SPEED < s * ACCELERATION_BOOST then
      { e with
        vx := e.vx * ACCELERATION_BOOST * (MAX_SPEED / (s * ACCELERATION_BOOST))
        vy := e.vy * ACCELERATION_BOOST * (MAX_SPEED / (s * ACCELERATION_BOOST)) }
    else
      { e with vx := e.vx * ACCELERATION_BOOST, vy := e.vy * ACCELERATION_BOOST }
  else e

/-- The filled-area collision step of EnemyPhysics.updateEnemies (lines
82-91): if the predictive check fires, bounce (without moving),
otherwise advance the position by the velocity.  d is the length of the
returned contact vector and s the speed of the post-jitter velocity
(both square roots in the source, passed explicitly). -/
def enemyFilledStep (gridSize : ℚ) (w h : ℕ) (filled : Finset Cell)
    (e : Enemy) (d jc js s : ℚ) : Enemy :=
  match checkFilledAreaCollision gridSize w h filled e with
  | some delta =>
    accelerateEnemy (bounceFromFilledArea e (normalizeContact d delta) jc js) s
  | none => { e with x := e.x + e.vx, y := e.y + e.vy }

/-- C5: whenever the predictive filled-area check fires, the position is
not advanced this tick and the resulting velocity is a positive multiple
of the jitter-rotated reflection v - 2(v·n)n scaled by the bounce boost;
the reflection itself inverts the normal component and preserves the
squared norm for a unit normal, and any sampled point landing in a
claimed, in-bounds, non-border cell makes the check fire. -/
theorem enemyFilledStep_bounce_spec (gridSize : ℚ) (w h : ℕ)
    (filled : Finset Cell) (e : Enemy) (d jc js s : ℚ) (delta : ℚ × ℚ)
    (hδ : checkFilledAreaCollision gridSize w h filled e = some delta) :
    (∀ e2 : Enemy, (∃ p ∈ samplePoints gridSize e2,
        inBounds w h (cellOf gridSize p.1 p.2) ∧
        ¬ isBorderCell w h (cellOf gridSize p.1 p.2) ∧
        cellOf gridSize p.1 p.2 ∈ filled) →
      (checkFilledAreaCollision gridSize w h filled e2).isSome) ∧
    (enemyFilledStep gridSize w h filled e d jc js s).x = e.x ∧
    (enemyFilledStep gridSize w h filled e d jc js s).y = e.y ∧
    (∃ lam : ℚ, 0 < lam ∧
      ((enemyFilledStep gridSize w h filled e d jc js s).vx,
       (enemyFilledStep gridSize w h filled e d jc js s).vy)
        = scale lam (rotate jc js (scale FILLED_BOUNCE_BOOST
            (reflect (e.vx, e.vy) (normalizeContact d delta))))) ∧
    (∀ v n : ℚ × ℚ, n.1 ^ 2 + n.2 ^ 2 = 1 →
      (reflect v n).1 * n.1 + (reflect v n).2 * n.2
          = -(v.1 * n.1 + v.2 * n.2) ∧
      (reflect v n).1 ^ 2 + (reflect v n).2 ^ 2 = v.1 ^ 2 + v.2 ^ 2) := by
  have hstep : enemyFilledStep gridSize w h filled e d jc js s
      = accelerateEnemy
          (bounceFromFilledArea e (normalizeContact d delta) jc js) s := by
    rw [enemyFilledStep, hδ]
  refine ⟨?_, ?_, ?_, ?_, ?_⟩
  · rintro e2 ⟨p, hp, hin, _, hfl⟩
    rw [checkFilledAreaCollision, ← Option.ne_none_iff_isSome]
    intro hnone
    rw [List.findSome?_eq_none_iff] at hnone
    have hthis := hnone p hp
    simp only [if_pos (And.intro hin hfl)] at hthis
    exact Option.some_ne_none _ hthis
  · rw [hstep, accelerateEnemy]
    split_ifs <;> rfl
  · rw [hstep, accelerateEnemy]
    split_ifs <;> rfl
  · rw [hstep, accelerateEnemy]
    split_ifs with h1 h2
    · have hspos : 0 < s := by
        have hb : (0 : ℚ) < ACCELERATION_BOOST := by norm_num [ACCELERATION_BOOST]
        have hm : (0 : ℚ) < MAX_SPEED := by norm_num [MAX_SPEED]
        nlinarith
      exact ⟨MAX_SPEED / s, div_pos (by norm_num [MAX_SPEED]) hspos, by
        have hne : s ≠ 0 := ne_of_gt hspos
        have hbne : ACCELERATION_BOOST ≠ 0 := by norm_num [ACCELERATION_BOOST]
        simp only [bounceFromFilledArea, scale]
        apply Prod.ext
        · simp only []
          field_simp
          ring
        · simp only []
          field_simp
          ring⟩
    · exact ⟨ACCELERATION_BOOST, by norm_num [ACCELERATION_BOOST], by
        simp only [bounceFromFilledArea, scale]
        apply Prod.ext
        · simp only []; ring
        · simp only []; ring⟩
    · exact ⟨1, one_pos, by
        simp only [bounceFromFilledArea, scale]
        apply Prod.ext
        · simp only []; ring
        · simp only []; ring⟩
  · intro v n hn
    constructor
    · simp only [reflect]
      linear_combination (-2 * (v.1 * n.1 + v.2 * n.2)) * hn
    · simp only [reflect]
      linear_combination (4 * (v.1 * n.1 + v.2 * n.2) ^ 2) * hn

/-- Witness for C5: an enemy resting at the center of claimed cell
(3,3); the check fires and the position is not advanced. -/
theorem enemyFilledStep_bounce_spec_witness :
    (enemyFilledStep 1 10 10 {(3, 3)} ⟨7 / 2, 7 / 2, 0, 0⟩ 0 1 0 0).x
      = (⟨7 / 2, 7 / 2, 0, 0⟩ : Enemy).x :=
  (enemyFilledStep_bounce_spec 1 10 10 {(3, 3)} ⟨7 / 2, 7 / 2, 0, 0⟩ 0 1 0 0
    (0, 0)
    (by norm_num [checkFilledAreaCollision, samplePoints, cellOf,
      inBounds, List.findSome?])).2.1

/-- EnemyPhysics.enforceSpeedLimits (lines 378-402): when the entry
speed s (a square root in the source, passed explicitly) is strictly
between 0.05 and MIN_SPEED, the velocity is rebuilt from the stored
base velocity scaled by MIN_SPEED / max(s, 0.1) (or, without a base
velocity, from a random heading rc, rs at MIN_SPEED); afterwards the
stale entry speed is compared against MAX_SPEED and the (possibly new)
velocity scaled by MAX_SPEED / s when it exceeds it. -/
def enforceSpeedLimits (e : Enemy) (s : ℚ) (baseVel : Option (ℚ × ℚ))
    (rc rs : ℚ) : Enemy :=
  let e1 :=
    if s < MIN_SPEED ∧ 1 / 20 < s then
      match baseVel with
      | some bv =>
        { e with vx := bv.1 * (MIN_SPEED / max s (1 / 10))
                 vy := bv.2 * (MIN_SPEED / max s (1 / 10)) }
      | none => { e with vx := rc * MIN_SPEED, vy := rs * MIN_SPEED }
    else e
  if MAX_SPEED < s then
    { e1 with vx := e1.vx * (MAX_SPEED / s), vy := e1.vy * (MAX_SPEED / s) }
  else e1

/-- Counterexample to C6: an enemy moving at speed 0.04 passes through
enforceSpeedLimits unchanged (the minimum branch requires speed above
0.05), leaving its speed strictly below MIN_SPEED. -/
theorem enforceSpeedLimits_bounds_false :
    ((1 / 25 : ℚ)) ^ 2
        = (⟨0, 0, 1 / 25, 0⟩ : Enemy).vx ^ 2
          + (⟨0, 0, 1 / 25, 0⟩ : Enemy).vy ^ 2 ∧
    enforceSpeedLimits ⟨0, 0, 1 / 25, 0⟩ (1 / 25) (some (1, 0)) 1 0
        = ⟨0, 0, 1 / 25, 0⟩ ∧
    (enforceSpeedLimits ⟨0, 0, 1 / 25, 0⟩ (1 / 25) (some (1, 0)) 1 0).vx ^ 2
        + (enforceSpeedLimits ⟨0, 0, 1 / 25, 0⟩ (1 / 25)
            (some (1, 0)) 1 0).vy ^ 2
      < MIN_SPEED ^ 2 := by
  refine ⟨by norm_num, ?_, ?_⟩
  · rw [enforceSpeedLimits.eq_def]
    norm_num [MIN_SPEED, MAX_SPEED]
  · rw [enforceSpeedLimits.eq_def]
    norm_num [MIN_SPEED, MAX_SPEED]

/-- C6 as amended: when the pre-enforcement speed is at least
MIN_SPEED, the post-enforcement speed lies in [MIN_SPEED, MAX_SPEED];
below 0.05 the velocity passes through unchanged, and in (0.05,
MIN_SPEED) it is rebuilt from the stored base velocity, so the bounds
are not guaranteed there. -/
theorem enforceSpeedLimits_spec (e : Enemy) (s : ℚ)
    (baseVel : Option (ℚ × ℚ)) (rc rs : ℚ)
    (hs : s ^ 2 = e.vx ^ 2 + e.vy ^ 2) (hmin : MIN_SPEED ≤ s) :
    MIN_SPEED ^ 2 ≤ (enforceSpeedLimits e s baseVel rc rs).vx ^ 2
        + (enforceSpeedLimits e s baseVel rc rs).vy ^ 2 ∧
    (enforceSpeedLimits e s baseVel rc rs).vx ^ 2
        + (enforceSpeedLimits e s baseVel rc rs).vy ^ 2 ≤ MAX_SPEED ^ 2 := by
  have h1 : ¬ (s < MIN_SPEED ∧ 1 / 20 < s) := by
    rintro ⟨ha, _⟩
    exact absurd hmin (not_le.mpr ha)
  have hspos : 0 < s :=
    lt_of_lt_of_le (by norm_num [MIN_SPEED]) hmin
  rw [enforceSpeedLimits.eq_def]
  simp only [if_neg h1]
  split_ifs with h2
  · have hsum : (e.vx * (MAX_SPEED / s)) ^ 2 + (e.vy * (MAX_SPEED / s)) ^ 2
        = MAX_SPEED ^ 2 := by
      have hne : s ≠ 0 := ne_of_gt hspos
      field_simp
      linear_combination MAX_SPEED ^ 2 * hs.symm
    rw [hsum]
    constructor
    · norm_num [MIN_SPEED, MAX_SPEED]
    · exact le_refl _
  · rw [← hs]
    push_neg at h2
    have hminpos : (0 : ℚ) < MIN_SPEED := by norm_num [MIN_SPEED]
    constructor
    · nlinarith
    · nlinarith

/-- Witness for C6 (amended) at unit speed along the x axis. -/
theorem enforceSpeedLimits_spec_witness :
    MIN_SPEED ^ 2 ≤ (enforceSpeedLimits ⟨0, 0, 1, 0⟩ 1 none 1 0).vx ^ 2
        + (enforceSpeedLimits ⟨0, 0, 1, 0⟩ 1 none 1 0).vy ^ 2 ∧
    (enforceSpeedLimits ⟨0, 0, 1, 0⟩ 1 none 1 0).vx ^ 2
        + (enforceSpeedLimits ⟨0, 0, 1, 0⟩ 1 none 1 0).vy ^ 2
      ≤ MAX_SPEED ^ 2 :=
  enforceSpeedLimits_spec ⟨0, 0, 1, 0⟩ 1 none 1 0 (by norm_num)
    (by norm_num [MIN_SPEED])

/-! ### Pickup timers and the orchestrator -/

/-- SurpriseManager.updateTimeBomb (lines 112-124): an activated or
magnetic bomb advances its timer by one per tick and explodes once the
timer reaches maxTimer; other states are untouched. -/
def updateTimeBomb (bomb : Surprise) : Surprise :=
  match bomb.sstate with
  | SurpriseState.activated =>
    if bomb.maxTimer ≤ bomb.timer + 1 then
      { bomb with timer := bomb.timer + 1, sstate := SurpriseState.exploded }
    else { bomb with timer := bomb.timer + 1 }
  | SurpriseState.magnetic =>
    if bomb.maxTimer ≤ bomb.timer + 1 then
      { bomb with timer := bomb.timer + 1, sstate := SurpriseState.exploded }
    else { bomb with timer := bomb.timer + 1 }
  | _ => bomb

/-- The activated-to-magnetic transition scheduled by
SurpriseManager.collectSurprise (lines 188-193): a wall-clock
setTimeout of 200 milliseconds flips an activated pickup to magnetic.
Whether the flip has happened when a given logical tick runs therefore
depends on the wall-clock milliseconds elapsed since collection, not on
any per-tick counter. -/
def magneticDelayTransition (s : SurpriseState) (elapsedMs : ℚ) :
    SurpriseState :=
  if s = SurpriseState.activated ∧ 200 ≤ elapsedMs then
    SurpriseState.magnetic
  else s

/-- Counterexample to C7: at the same logical tick and the same input
sequence, a collected pickup observed 100 ms after collection is still
activated while one observed 300 ms after collection is magnetic — the
transition is a wall-clock setTimeout, not a per-tick counter, so
identical input sequences do not determine the GameState sequence. -/
theorem tick_wallclock_nondeterminism :
    magneticDelayTransition SurpriseState.activated 100
      ≠ magneticDelayTransition SurpriseState.activated 300 := by
  decide

/-- C7 as amended: the pickup expiry timer is a plain per-tick counter
— updateTimeBomb is a pure function of the bomb record that increments
the timer by exactly one per tick for an activated or magnetic bomb and
explodes it exactly when the incremented timer reaches maxTimer (in
particular it is deterministic tick by tick). -/
theorem updateTimeBomb_counter_spec (b : Surprise)
    (hact : b.sstate = SurpriseState.activated
      ∨ b.sstate = SurpriseState.magnetic) :
    (updateTimeBomb b).timer = b.timer + 1 ∧
    ((updateTimeBomb b).sstate = SurpriseState.exploded
      ↔ b.maxTimer ≤ b.timer + 1) := by
  rcases hact with hs | hs
  · rw [updateTimeBomb.eq_def, hs]
    by_cases hexp : b.maxTimer ≤ b.timer + 1
    · simp [hexp]
    · simp [hexp, hs]
  · rw [updateTimeBomb.eq_def, hs]
    by_cases hexp : b.maxTimer ≤ b.timer + 1
    · simp [hexp]
    · simp [hexp, hs]

/-- Witness for C7 (amended): a magnetic bomb two ticks from expiry. -/
theorem updateTimeBomb_counter_spec_witness :
    (updateTimeBomb ⟨0, SurpriseState.magnetic, 598, 600, 0, 0⟩).timer
        = 598 + 1 ∧
    ((updateTimeBomb ⟨0, SurpriseState.magnetic, 598, 600, 0, 0⟩).sstate
        = SurpriseState.exploded ↔ (600 : ℕ) ≤ 598 + 1) :=
  updateTimeBomb_counter_spec ⟨0, SurpriseState.magnetic, 598, 600, 0, 0⟩
    (Or.inr rfl)

/-- TRANSITION_DURATION_FRAMES (GameLogic.ts line 21). -/
def TRANSITION_DURATION_FRAMES : ℕ := 90

/-- LevelManager.completeLevelTransition (lines 106-109). -/
def completeLevelTransition (st : GameState) : GameState :=
  { st with isLevelTransition := false }

/-- LevelManager.resetLevelArea (lines 44-71): clear the claimed set,
re-add the border ring immediately, clear the trail, recompute the
claimed percentage and reset the player to the origin. -/
def resetLevelArea (w h : ℕ) (st : GameState) : GameState :=
  { st with
    filledCells := borderRing w h
    trail := []
    areaFilled := (((borderRing w h).card : ℚ) / ((w : ℚ) * (h : ℚ))) * 100
    player := ⟨0, 0, 0, 0⟩ }

/-- LevelManager.advanceLevel (lines 19-42): level bonus, level and
enemy-count bump, transition flag, area reset and new enemies (the
enemies carry random initial velocities in the source; the generator is
a parameter). -/
def advanceLevel (w h : ℕ) (newEnemies : ℕ → List Enemy)
    (st : GameState) : GameState :=
  let st1 := { st with
    score := st.score + st.level * 1000 + (if 85 < st.areaFilled then 500 else 0)
    level := st.level + 1
    enemyCount := st.level + 1
    isLevelTransition := true }
  let st2 := resetLevelArea w h st1
  { st2 with enemies := newEnemies (st.level + 1) }

/-- GameLogic.updateGame (lines 34-108), restricted to the structure
that touches the claimed set.  The steps that never write filledCells —
lives initialization and surprise spawning on the first tick
(initExtras), the extra-life check, surprise updates, pickup
collection, bomb collisions, player and enemy physics, collision
detection and death handling (midSteps), and the surprise spawn at
transition end (transitionSpawn) — are parameters; the theorem below
holds for every such step that leaves filledCells unchanged, which each
of those source functions does.  Returns the transition frame counter,
the trail manager's recorded cell and the new state. -/
def updateGame (gridSize : ℚ) (w h : ℕ)
    (initExtras midSteps transitionSpawn : GameState → GameState)
    (newEnemies : ℕ → List Enemy) (tc : ℕ) (lastPos : Option Cell)
    (st : GameState) : ℕ × Option Cell × GameState :=
  if st.isLevelTransition then
    if TRANSITION_DURATION_FRAMES ≤ tc + 1 then
      (0, lastPos, transitionSpawn (completeLevelTransition st))
    else (tc + 1, lastPos, st)
  else
    let st1 := if st.filledCells = ∅ then initExtras (initBorder w h st) else st
    let st2 := midSteps st1
    let r := updateTrail gridSize w h lastPos st2
    if 80 ≤ r.2.areaFilled then
      (0, r.1, advanceLevel w h newEnemies r.2)
    else (0, r.1, r.2)

/-- The state reached just after the trail/claim update inside a
non-transition tick of updateGame (before the level-completion check). -/
def postTrailState (gridSize : ℚ) (w h : ℕ)
    (initExtras midSteps : GameState → GameState) (lastPos : Option Cell)
    (st : GameState) : GameState :=
  (updateTrail gridSize w h lastPos (midSteps
    (if st.filledCells = ∅ then initExtras (initBorder w h st) else st))).2

/-- Whether this tick performs the explicit level advance (the
claimed-percentage threshold check of GameLogic.updateGame line 102). -/
def tickAdvancesLevel (gridSize : ℚ) (w h : ℕ)
    (initExtras midSteps : GameState → GameState) (lastPos : Option Cell)
    (st : GameState) : Prop :=
  ¬ st.isLevelTransition ∧
    80 ≤ (postTrailState gridSize w h initExtras midSteps lastPos st).areaFilled

/-- updateTrail never removes a claimed cell. -/
lemma updateTrail_filled_mono (gridSize : ℚ) (w h : ℕ)
    (lp : Option Cell) (st : GameState) :
    st.filledCells ⊆ (updateTrail gridSize w h lp st).2.filledCells := by
  rw [updateTrail]
  by_cases hch : lp = some (cellOf gridSize st.player.x st.player.y)
  · rw [if_pos hch]
  · rw [if_neg hch]
    by_cases hstop : isBorderCell w h (cellOf gridSize st.player.x st.player.y)
        ∨ cellOf gridSize st.player.x st.player.y ∈ st.filledCells
    · rw [if_pos hstop]
      by_cases htr : st.trail ≠ []
      · simp only [if_pos htr]
        intro c hc
        rw [show (completeArea gridSize w h st).filledCells
            = (fillAreas gridSize st.enemies
                (scanAreas w h (st.filledCells ∪ trailCellSet gridSize st)
                  (interiorCells w h) ∅ []).2
                (st.filledCells ∪ trailCellSet gridSize st, 0)).1 from rfl,
          fillAreas_mem]
        exact Or.inl (Finset.mem_union_left _ hc)
      · simp only [if_neg htr]
        exact Finset.Subset.refl _
    · rw [if_neg hstop]
      by_cases hany : st.trail.any (fun p => cellOf gridSize p.1 p.2
          = cellOf gridSize st.player.x st.player.y)
      · simp only [if_pos hany]
        exact Finset.Subset.refl _
      · simp only [if_neg hany]
        exact Finset.Subset.refl _

/-- C3: within a level the claimed set only grows tick to tick; the
border ring stays claimed once claimed; the first tick's border
initialization establishes the border invariant; and the explicit level
advance resets the claimed set to exactly the border ring, re-adding it
immediately.  Holds for every behaviour of the physics, pickup, lives
and collision steps that leaves filledCells unchanged — which each of
those source functions does. -/
theorem updateGame_claimed_invariants (gridSize : ℚ) (w h : ℕ)
    (initExtras midSteps transitionSpawn : GameState → GameState)
    (newEnemies : ℕ → List Enemy) (tc : ℕ) (lastPos : Option Cell)
    (st : GameState)
    (hInit : ∀ s, (initExtras s).filledCells = s.filledCells)
    (hMid : ∀ s, (midSteps s).filledCells = s.filledCells)
    (hSpawn : ∀ s, (transitionSpawn s).filledCells = s.filledCells) :
    (¬ tickAdvancesLevel gridSize w h initExtras midSteps lastPos st →
      st.filledCells ⊆ (updateGame gridSize w h initExtras midSteps
        transitionSpawn newEnemies tc lastPos st).2.2.filledCells) ∧
    (borderRing w h ⊆ st.filledCells →
      borderRing w h ⊆ (updateGame gridSize w h initExtras midSteps
        transitionSpawn newEnemies tc lastPos st).2.2.filledCells) ∧
    (st.filledCells = ∅ → ¬ st.isLevelTransition →
      borderRing w h ⊆ (updateGame gridSize w h initExtras midSteps
        transitionSpawn newEnemies tc lastPos st).2.2.filledCells) ∧
    (tickAdvancesLevel gridSize w h initExtras midSteps lastPos st →
      (updateGame gridSize w h initExtras midSteps transitionSpawn
        newEnemies tc lastPos st).2.2.filledCells = borderRing w h) := by
  by_cases htrans : st.isLevelTransition
  · have hrw : updateGame gridSize w h initExtras midSteps transitionSpawn
        newEnemies tc lastPos st
        = if TRANSITION_DURATION_FRAMES ≤ tc + 1 then
            (0, lastPos, transitionSpawn (completeLevelTransition st))
          else (tc + 1, lastPos, st) := by
      rw [updateGame, if_pos htrans]
    refine ⟨?_, ?_, ?_, ?_⟩
    · intro _
      rw [hrw]
      split_ifs
      · rw [hSpawn, completeLevelTransition]
      · exact Finset.Subset.refl _
    · intro hb
      rw [hrw]
      split_ifs
      · rw [hSpawn, completeLevelTransition]; exact hb
      · exact hb
    · intro _ hnt
      exact absurd htrans hnt
    · rintro ⟨hnt, _⟩
      exact absurd htrans hnt
  · have hst1 : (if st.filledCells = ∅ then initExtras (initBorder w h st)
        else st).filledCells = st.filledCells ∪
          (if st.filledCells = ∅ then borderRing w h else ∅) := by
      split_ifs with he
      · rw [hInit, initBorder]
      · rw [Finset.union_empty]
    have hsub1 : st.filledCells ⊆ (if st.filledCells = ∅ then
        initExtras (initBorder w h st) else st).filledCells := by
      rw [hst1]; exact Finset.subset_union_left
    have hsub2 : (if st.filledCells = ∅ then initExtras (initBorder w h st)
        else st).filledCells ⊆ (postTrailState gridSize w h initExtras
          midSteps lastPos st).filledCells := by
      have hmono := updateTrail_filled_mono gridSize w h lastPos (midSteps
        (if st.filledCells = ∅ then initExtras (initBorder w h st) else st))
      rw [hMid] at hmono
      exact hmono
    by_cases hadv : 80 ≤ (postTrailState gridSize w h initExtras midSteps
        lastPos st).areaFilled
    · have hrw : (updateGame gridSize w h initExtras midSteps transitionSpawn
          newEnemies tc lastPos st).2.2
          = advanceLevel w h newEnemies
              (postTrailState gridSize w h initExtras midSteps lastPos st) := by
        have hadv2 := hadv
        simp only [postTrailState] at hadv2
        rw [updateGame, if_neg htrans]
        simp only [if_pos hadv2, postTrailState]
      have hfin : (updateGame gridSize w h initExtras midSteps transitionSpawn
          newEnemies tc lastPos st).2.2.filledCells = borderRing w h := by
        rw [hrw, advanceLevel, resetLevelArea]
      refine ⟨?_, ?_, ?_, fun _ => hfin⟩
      · intro hna
        exact absurd ⟨htrans, hadv⟩ hna
      · intro _
        rw [hfin]
      · intro _ _
        rw [hfin]
    · have hrw : (updateGame gridSize w h initExtras midSteps transitionSpawn
          newEnemies tc lastPos st).2.2
          = postTrailState gridSize w h initExtras midSteps lastPos st := by
        have hadv2 := hadv
        simp only [postTrailState] at hadv2
        rw [updateGame, if_neg htrans]
        simp only [if_neg hadv2, postTrailState]
      refine ⟨?_, ?_, ?_, ?_⟩
      · intro _
        rw [hrw]
        exact hsub1.trans hsub2
      · intro hb
        rw [hrw]
        exact hb.trans (hsub1.trans hsub2)
      · intro he _
        rw [hrw]
        refine Finset.Subset.trans ?_ hsub2
        rw [hst1, if_pos he, he, Finset.empty_union]
      · rintro ⟨_, hc⟩
        exact absurd hc hadv

/-- Witness for C3 on the sample board with identity environment
steps: the border ring stays claimed across the tick. -/
theorem updateGame_claimed_invariants_witness :
    borderRing 5 5 ⊆ (updateGame 1 5 5 id id id (fun _ => []) 0 none
      sampleState).2.2.filledCells :=
  (updateGame_claimed_invariants 1 5 5 id id id (fun _ => []) 0 none
    sampleState (fun _ => rfl) (fun _ => rfl) (fun _ => rfl)).2.1
    (Finset.Subset.refl _)

end Xonix
